import Mathlib

/-
Verification development for the `skill-issue` audit tool
(`scripts/audit.mjs`).  The script is a read-only auditor: it collects
skill records from configured directories, scans dated/free-form logs for
mentions of each skill, checks declared dependencies, optionally queries a
registry, and combines the signals into a categorical recommendation.

The JavaScript source is shallowly embedded below.  Text is modelled as
`List Char`; JavaScript string code-unit comparison is modelled through
character code points (identical on the ASCII data the tool manipulates).
Filesystem and clock facts (directory existence, file listings, mtimes,
the cutoff date) enter the embedded functions as explicit parameters,
mirroring exactly where `audit.mjs` reads them.
-/

set_option maxHeartbeats 1000000

namespace SkillAudit

/-! ### Basic text helpers -/

/-- Characters matched by the JavaScript regular-expression class `\s`
(also exactly the set removed by `String.prototype.trim`): tab, LF, VT,
FF, CR, space, NBSP, and the Unicode space/line separators. -/
def isJsSpace (c : Char) : Bool :=
  c.toNat = 9 || c.toNat = 10 || c.toNat = 11 || c.toNat = 12 || c.toNat = 13 ||
  c.toNat = 32 || c.toNat = 0xA0 || c.toNat = 0x1680 ||
  (0x2000 ≤ c.toNat && c.toNat ≤ 0x200A) ||
  c.toNat = 0x2028 || c.toNat = 0x2029 || c.toNat = 0x202F ||
  c.toNat = 0x205F || c.toNat = 0x3000 || c.toNat = 0xFEFF

/-- JavaScript line terminators (the characters the regex `.` does not match). -/
def isLineTerm (c : Char) : Bool :=
  c.toNat = 10 || c.toNat = 13 || c.toNat = 0x2028 || c.toNat = 0x2029

/-- Lexicographic `≤` on character sequences, by code point.  This models
the JavaScript `<=`/`>=` string comparison used on the fixed-width
`YYYY-MM-DD` date strings in `checkUsage` (for such ASCII strings the
UTF-16 code-unit order used by JavaScript coincides with code-point
order). -/
def strLe : List Char → List Char → Bool
  | [], _ => true
  | _ :: _, [] => false
  | a :: s, b :: t => if a.toNat = b.toNat then strLe s t else decide (a.toNat < b.toNat)

/-- Model of `String.prototype.trim`: strip `isJsSpace` characters from
both ends. -/
def trimChars (s : List Char) : List Char :=
  ((s.dropWhile isJsSpace).reverse.dropWhile isJsSpace).reverse

/-- Model of `str.split("\n")`. -/
def splitLines : List Char → List (List Char)
  | [] => [[]]
  | '\n' :: rest => [] :: splitLines rest
  | c :: rest =>
    match splitLines rest with
    | l :: ls => (c :: l) :: ls
    | [] => [[c]]

/-! ### Recommendation engine (audit.mjs lines 200-213)

The per-skill inputs of the recommendation are the health result
(`checkHealth`'s missing-bins / missing-envs lists), the usage count and
the hub lookup result.  Bin/env/version names are atomic here, so plain
`String` is used for them. -/

/-- Result of `checkHealth` (audit.mjs lines 139-148): the declared
required executables and environment variables that are missing.  The
full declared lists are also returned by the source for display; they do
not feed the recommendation and are omitted. -/
structure HealthResult where
  missingBins : List String
  missingEnvs : List String
deriving DecidableEq

/-- Result of `checkHubVersion` (audit.mjs lines 150-171) or of the
skipped lookup `{ available: false, version: "n/a" }`. -/
structure HubResult where
  available : Bool
  version : String
deriving DecidableEq

/-- Recommendation chain of audit.mjs lines 200-213, a pure function of
(health, usage, hub). -/
def recommend (health : HealthResult) (usage : Nat) (hub : HubResult) : String :=
  if health.missingBins.length > 0 then "remove"
  else if hub.version ≠ "not found" ∧ hub.version ≠ "n/a" ∧ hub.version ≠ "error" then
    if usage > 0 then "keep" else "review"
  else if usage > 0 then "keep"
  else if health.missingEnvs.length > 0 then "review"
  else "review"

/-- Tally of recommendations (audit.mjs lines 219-220). -/
structure Tally where
  keep : Nat
  update : Nat
  review : Nat
  remove : Nat
deriving DecidableEq

/-- One step of the tally loop `tally[r.rec]++`.  The recommendation
strings produced by `recommend` are exactly the four slots; any other
string leaves the tally unchanged (unreachable from `recommend`, proved
below). -/
def tallyStep (t : Tally) (r : String) : Tally :=
  if r = "keep" then { t with keep := t.keep + 1 }
  else if r = "update" then { t with update := t.update + 1 }
  else if r = "review" then { t with review := t.review + 1 }
  else if r = "remove" then { t with remove := t.remove + 1 }
  else t

/-- Tally over a full result set. -/
def tallyOf (recs : List String) : Tally :=
  recs.foldl tallyStep ⟨0, 0, 0, 0⟩

/-! ### Usage scanner (audit.mjs lines 102-137)

`checkUsage` builds the match pattern
`new RegExp(skillName.replace(hyphens, "[\\s-]"), "gi")` (every `-`
replaced by the class `[\s-]`) and scans the
memory directory.  The constructed regular expression is a plain
character sequence in which every `-` of the identifier became the class
`[\s-]`; it has no quantifiers or groups, so each pattern element
consumes exactly one character.  The embedding compiles the identifier
to a list of such one-character atoms.

Identifier characters outside letters, digits, `_` and `.` are regex
metacharacters in the constructed source: an unpaired `(` — as in a
directory named `my(skill` — makes the `RegExp` constructor throw a
`SyntaxError`, and the other specials change the pattern's shape.  The
embedding maps every such character to compilation failure (`none`);
all theorems below evaluate compilation only where this is exact
(safe literal identifiers, and the genuinely-throwing `(` input). -/

/-- One element of the compiled search pattern. -/
inductive Atom where
  /-- A literal character, matched case-insensitively (the `i` flag). -/
  | lit (c : Char)
  /-- The character class `[\s-]` that replaced a `-` of the identifier. -/
  | spaceDash
  /-- The metacharacter `.`: matches any character except a line terminator. -/
  | dotAny
deriving DecidableEq

/-- Characters of the identifier that are literals of the constructed
regular expression. -/
def isSafeLit (c : Char) : Bool :=
  c.isAlphanum || c = '_'

/-- Compilation of one identifier character, after the source's
global replace of `-` by `[\s-]`. -/
def compileChar (c : Char) : Option Atom :=
  if c = '-' then some Atom.spaceDash
  else if isSafeLit c then some (Atom.lit c)
  else if c = '.' then some Atom.dotAny
  else none

/-- Compilation of the whole identifier into a pattern
(`new RegExp` on the hyphen-replaced identifier, flags `gi`);
`none` models the constructor throwing. -/
def compilePattern : List Char → Option (List Atom)
  | [] => some []
  | c :: cs =>
    match compileChar c, compilePattern cs with
    | some a, some as => some (a :: as)
    | _, _ => none

/-- Matching of one atom against one subject character.  Case-insensitive
literal matching is modelled by ASCII `toLower` canonicalisation, which
agrees with the JavaScript `i` flag on the ASCII identifiers involved. -/
def atomMatches : Atom → Char → Bool
  | Atom.lit c, d => c.toLower = d.toLower
  | Atom.spaceDash, d => isJsSpace d || d = '-'
  | Atom.dotAny, d => !isLineTerm d

/-- Whether the pattern matches at the start of the subject (each atom
consumes exactly one character). -/
def matchHere : List Atom → List Char → Bool
  | [], _ => true
  | _ :: _, [] => false
  | a :: pat, c :: s => atomMatches a c && matchHere pat s

/-- Global match counting, fuelled for structural recursion.  Mirrors
`content.match(pattern).length` with the `g` flag: scan left to right,
and on a match advance past it (by one position for an empty match, as
`lastIndex` is bumped); otherwise advance one position.  The fuel is set
to the subject length plus one by `countMatches`, which is enough since
every step consumes at least one subject character. -/
def countFromAux (pat : List Atom) : Nat → List Char → Nat
  | 0, _ => 0
  | _ + 1, [] => if matchHere pat [] then 1 else 0
  | fuel + 1, c :: rest =>
    if matchHere pat (c :: rest) then
      1 + countFromAux pat fuel (rest.drop (pat.length - 1))
    else
      countFromAux pat fuel rest

/-- Number of non-overlapping pattern matches in the subject
(`content.match(pattern)` under flags `gi`, counting the result array). -/
def countMatches (pat : List Atom) (s : List Char) : Nat :=
  countFromAux pat (s.length + 1) s

/-- One file of the memory directory, as `checkUsage` observes it:
its name from `readdir`, its `stat` modification time (an instant,
modelled as an integer timestamp), and its text content. -/
structure LogFile where
  name : List Char
  mtime : Int
  content : List Char
deriving DecidableEq

/-- Match of the file-name regex `/^(\d{4}-\d{2}-\d{2})\.md$/`
(audit.mjs line 115): returns the captured date string for a strictly
dated memory file name. -/
def datedName (f : List Char) : Option (List Char) :=
  match f with
  | [a, b, c, d, '-', e, g, '-', h, i, '.', 'm', 'd'] =>
    if a.isDigit && b.isDigit && c.isDigit && d.isDigit &&
       e.isDigit && g.isDigit && h.isDigit && i.isDigit then
      some [a, b, c, d, '-', e, g, '-', h, i]
    else none
  | _ => none

/-- Loop body of `checkUsage` for one directory entry (audit.mjs lines
113-135): a strictly dated `YYYY-MM-DD.md` file contributes its match
count when its date is at or after the cutoff date string (then
`continue`); any other `.log` or `.md` file contributes when its
modification time is at or after the cutoff instant. -/
def scanStep (pat : List Atom) (cutoff : Int) (cutoffStr : List Char)
    (count : Nat) (f : LogFile) : Nat :=
  match datedName f.name with
  | some d =>
    if strLe cutoffStr d then count + countMatches pat f.content else count
  | none =>
    if (String.toList ".log").isSuffixOf f.name || (String.toList ".md").isSuffixOf f.name then
      if cutoff ≤ f.mtime then count + countMatches pat f.content else count
    else count

/-- Model of `checkUsage(skillName)` (audit.mjs lines 102-137).
`memExists` is the `exists(MEMORY_DIR)` check; `files` the `readdir`
listing with each file's stat time and content; `cutoff` the instant
`new Date()` minus `DAYS_BACK` days and `cutoffStr` its
`toISOString().slice(0, 10)` date string (lines 106-108).  The result is
`some count`, or `none` when the `RegExp` constructor throws on the
identifier (line 111). -/
def checkUsage (skillName : List Char) (memExists : Bool) (files : List LogFile)
    (cutoff : Int) (cutoffStr : List Char) : Option Nat :=
  if !memExists then some 0
  else
    match compilePattern skillName with
    | none => none
    | some pat => some (files.foldl (scanStep pat cutoff cutoffStr) 0)

/-- Specification-side inclusion predicate, written from the spec's
words: a strictly dated file is included exactly when its embedded date
string is lexicographically at or after the cutoff date string; any
other `.log` or `.md` file exactly when its modification time is at or
after the cutoff instant. -/
def includedFile (cutoff : Int) (cutoffStr : List Char) (f : LogFile) : Bool :=
  match datedName f.name with
  | some d => strLe cutoffStr d
  | none =>
    ((String.toList ".log").isSuffixOf f.name || (String.toList ".md").isSuffixOf f.name)
      && decide (cutoff ≤ f.mtime)

/-- Specification-side variant relation for one character of the
identifier: a separator `-` may appear as itself or as a whitespace
character; any other character may appear as itself or with opposite
letter case. -/
def isVariantChar (idc occ : Char) : Bool :=
  if idc = '-' then occ = '-' || isJsSpace occ
  else occ = idc || (occ.isAlpha && idc.isAlpha && occ.toLower = idc.toLower)

/-- Specification-side variant relation: `occ` is the identifier with
letter cases changed arbitrarily and each separator `-` replaced by
itself or a whitespace character. -/
def isVariant : List Char → List Char → Bool
  | [], [] => true
  | a :: s, b :: t => isVariantChar a b && isVariant s t
  | _, _ => false

/-! ### JSON values and `JSON.parse` (used for the `metadata` blob)

`parseFrontmatter` runs `JSON.parse` on the `metadata` value (audit.mjs
line 52).  The grammar below is the JSON grammar accepted by
`JSON.parse`, with two deliberate simplifications that no audited claim
touches: number literals are kept as their source lexemes instead of
floating-point values, and a `\u` escape must denote a Unicode scalar
value (lone surrogates are rejected). -/

/-- Parsed JSON value. -/
inductive Json where
  | null : Json
  | bool (b : Bool) : Json
  | num (lexeme : List Char) : Json
  | str (s : List Char) : Json
  | arr (elems : List Json) : Json
  | obj (fields : List (List Char × Json)) : Json

/-- Whitespace accepted by `JSON.parse` between tokens. -/
def isJsonWs (c : Char) : Bool :=
  c.toNat = 9 || c.toNat = 10 || c.toNat = 13 || c.toNat = 32

/-- Value of a hexadecimal digit. -/
def hexVal (c : Char) : Option Nat :=
  if c.isDigit then some (c.toNat - 48)
  else if 'a' ≤ c && c ≤ 'f' then some (c.toNat - 87)
  else if 'A' ≤ c && c ≤ 'F' then some (c.toNat - 55)
  else none

/-- Body of a JSON string literal, after the opening quote.  Returns the
decoded characters and the input remaining after the closing quote.
Raw control characters are rejected, escapes are decoded, and a `\u`
escape must denote a Unicode scalar value. -/
def parseStringBody : Nat → List Char → Option (List Char × List Char)
  | 0, _ => none
  | _ + 1, [] => none
  | fuel + 1, c :: rest =>
    if c.toNat = 34 then some ([], rest)
    else if c.toNat = 92 then
      match rest with
      | [] => none
      | e :: r2 =>
        if e.toNat = 34 || e.toNat = 92 || e = '/' then
          match parseStringBody fuel r2 with
          | some (s, r3) => some (e :: s, r3)
          | none => none
        else if e = 'b' || e = 'f' || e = 'n' || e = 'r' || e = 't' then
          let d : Char :=
            if e = 'b' then Char.ofNat 8
            else if e = 'f' then Char.ofNat 12
            else if e = 'n' then Char.ofNat 10
            else if e = 'r' then Char.ofNat 13
            else Char.ofNat 9
          match parseStringBody fuel r2 with
          | some (s, r3) => some (d :: s, r3)
          | none => none
        else if e = 'u' then
          match r2 with
          | h1 :: h2 :: h3 :: h4 :: r3 =>
            match hexVal h1, hexVal h2, hexVal h3, hexVal h4 with
            | some v1, some v2, some v3, some v4 =>
              let n := ((v1 * 16 + v2) * 16 + v3) * 16 + v4
              if 0xD800 ≤ n && n ≤ 0xDFFF then none
              else
                match parseStringBody fuel r3 with
                | some (s, r4) => some (Char.ofNat n :: s, r4)
                | none => none
            | _, _, _, _ => none
          | _ => none
        else none
    else if c.toNat < 32 then none
    else
      match parseStringBody fuel rest with
      | some (s, r2) => some (c :: s, r2)
      | none => none

/-- Lexer for a JSON number literal: optional minus, an integer part
with no superfluous leading zero, an optional fraction, an optional
exponent.  Returns the lexeme and the remaining input. -/
def parseNumberLex (s0 : List Char) : Option (List Char × List Char) := do
  let (sgn, s1) :=
    match s0 with
    | '-' :: r => ([('-' : Char)], r)
    | _ => (([] : List Char), s0)
  let ip := s1.takeWhile Char.isDigit
  let s2 := s1.dropWhile Char.isDigit
  if ip = [] then none
  else if 1 < ip.length && ip.head? = some '0' then none
  else
    let (fp, s3) ←
      match s2 with
      | '.' :: r =>
        let fd := r.takeWhile Char.isDigit
        if fd = [] then none else some ('.' :: fd, r.dropWhile Char.isDigit)
      | _ => some (([] : List Char), s2)
    let (ep, s4) ←
      match s3 with
      | e :: r =>
        if e = 'e' || e = 'E' then
          let (es, r1) :=
            match r with
            | '+' :: r2 => ([('+' : Char)], r2)
            | '-' :: r2 => ([('-' : Char)], r2)
            | _ => (([] : List Char), r)
          let ed := r1.takeWhile Char.isDigit
          if ed = [] then none else some (e :: es ++ ed, r1.dropWhile Char.isDigit)
        else some (([] : List Char), s3)
      | [] => some (([] : List Char), s3)
    some (sgn ++ ip ++ fp ++ ep, s4)

mutual

/-- Parser for one JSON value, leading whitespace allowed.  The fuel
decreases at each nesting level; `jsonParse` supplies input length plus
one, which always suffices. -/
def parseValue : Nat → List Char → Option (Json × List Char)
  | 0, _ => none
  | fuel + 1, s =>
    match s.dropWhile isJsonWs with
    | 'n' :: 'u' :: 'l' :: 'l' :: r => some (Json.null, r)
    | 't' :: 'r' :: 'u' :: 'e' :: r => some (Json.bool true, r)
    | 'f' :: 'a' :: 'l' :: 's' :: 'e' :: r => some (Json.bool false, r)
    | c :: r =>
      if c.toNat = 34 then
        match parseStringBody (r.length + 1) r with
        | some (str, rest) => some (Json.str str, rest)
        | none => none
      else if c.toNat = 123 then
        match r.dropWhile isJsonWs with
        | c2 :: r2 =>
          if c2.toNat = 125 then some (Json.obj [], r2)
          else parseObjFields fuel [] r
        | [] => none
      else if c = '[' then
        match r.dropWhile isJsonWs with
        | ']' :: r2 => some (Json.arr [], r2)
        | _ => parseArrElems fuel [] r
      else if c = '-' || c.isDigit then
        match parseNumberLex (c :: r) with
        | some (lex, rest) => some (Json.num lex, rest)
        | none => none
      else none
    | [] => none

/-- Parser for the elements of a non-empty JSON array, after `[` or `,`. -/
def parseArrElems : Nat → List Json → List Char → Option (Json × List Char)
  | 0, _, _ => none
  | fuel + 1, acc, s =>
    match parseValue fuel s with
    | none => none
    | some (v, rest) =>
      match rest.dropWhile isJsonWs with
      | ',' :: r2 => parseArrElems fuel (acc ++ [v]) r2
      | ']' :: r2 => some (Json.arr (acc ++ [v]), r2)
      | _ => none

/-- Parser for the fields of a non-empty JSON object, after the opening
brace or `,`.  Duplicate keys are kept in order; no audited claim reads
object fields, so the last-wins collapse performed by `JSON.parse` is
not replayed here. -/
def parseObjFields : Nat → List (List Char × Json) → List Char → Option (Json × List Char)
  | 0, _, _ => none
  | fuel + 1, acc, s =>
    match s.dropWhile isJsonWs with
    | c :: r =>
      if c.toNat = 34 then
        match parseStringBody (r.length + 1) r with
        | some (key, rest) =>
          match rest.dropWhile isJsonWs with
          | ':' :: r2 =>
            match parseValue fuel r2 with
            | none => none
            | some (v, r3) =>
              match r3.dropWhile isJsonWs with
              | ',' :: r4 => parseObjFields fuel (acc ++ [(key, v)]) r4
              | c2 :: r4 =>
                if c2.toNat = 125 then some (Json.obj (acc ++ [(key, v)]), r4)
                else none
              | [] => none
          | _ => none
        | none => none
      else none
    | [] => none

end

/-- Model of `JSON.parse` on the metadata blob: parse one value and
require only trailing whitespace after it; `none` models a thrown
`SyntaxError`. -/
def jsonParse (s : List Char) : Option Json :=
  match parseValue (s.length + 1) s with
  | some (v, rest) => if (rest.dropWhile isJsonWs).isEmpty then some v else none
  | none => none

/-! ### Frontmatter parsing (audit.mjs lines 34-55) -/

/-- Characters of the JavaScript regex class `\w`. -/
def isWordChar (c : Char) : Bool :=
  c.isAlphanum || c = '_'

/-- Quote stripping of audit.mjs lines 44-46: if the value starts and
ends with `"`, or starts and ends with `'`, drop the first and last
character (a single quote character satisfies both tests in JavaScript
and becomes empty, as `slice(1, -1)` does). -/
def stripQuotes (v : List Char) : List Char :=
  match v.head?, v.getLast? with
  | some a, some b =>
    if (a.toNat = 34 && b.toNat = 34) || (a.toNat = 39 && b.toNat = 39) then
      (v.drop 1).dropLast
    else v
  | _, _ => v

/-- Model of one header line against `(\w[\w-]*):\s*(.+)` anchored at the
line start, followed by the source's `trim` and quote stripping: the key
is a `\w` character then a run of `\w` or `-`, a `:` must follow, and
the remainder must contain at least one non-line-terminator character
(otherwise `.+` cannot match).  The captured value — remainder with the
whitespace run skipped by `\s*`, cut at the first line terminator —
equals, after `trim`, the trimmed remainder computed here. -/
def parseLine (line : List Char) : Option (List Char × List Char) :=
  match line with
  | [] => none
  | c :: rest =>
    if !isWordChar c then none
    else
      let keyTail := rest.takeWhile (fun d => isWordChar d || d = '-')
      match rest.drop keyTail.length with
      | ':' :: tail =>
        if tail.any (fun d => !isLineTerm d) then
          let raw := (tail.dropWhile isJsSpace).takeWhile (fun d => !isLineTerm d)
          some (c :: keyTail, stripQuotes (trimChars raw))
        else none
      | _ => none

/-- Scan for the closing `\n---` of the header (the lazy group
`([\s\S]*?)` takes the characters before the first occurrence). -/
def scanClose : List Char → Option (List Char)
  | '\n' :: '-' :: '-' :: '-' :: _ => some []
  | c :: rest => (scanClose rest).map (fun yaml => c :: yaml)
  | [] => none

/-- Match of `content` against the anchored header regex: the content
must begin with `---` and a newline, and a closing line `---` must
follow; returns the header text in between. -/
def findHeader (content : List Char) : Option (List Char) :=
  match content with
  | '-' :: '-' :: '-' :: '\n' :: rest => scanClose rest
  | _ => none

/-- Model of `parseFrontmatter` (audit.mjs lines 34-55) up to the
`_meta` post-processing: the `key: value` entries of the header, in
order.  An absent or unmatched header yields no entries, as the source
returns `{}`.  Reading a key takes the last entry for it, as later
assignments to `result[key]` overwrite earlier ones. -/
def parseFrontmatter (content : List Char) : List (List Char × List Char) :=
  match findHeader content with
  | none => []
  | some yaml => (splitLines yaml).filterMap parseLine

/-- Object-semantics lookup in the parsed frontmatter: the last entry
for the key, if any. -/
def fmLookup (entries : List (List Char × List Char)) (k : List Char) : Option (List Char) :=
  (entries.reverse.find? (fun p => p.1 == k)).map (fun p => p.2)

/-- Whether a JSON number lexeme denotes zero: every digit of its
integer and fraction parts is `0`.  (Exponents cannot make a non-zero
mantissa zero; extreme exponents that underflow to floating-point zero
are not replayed — no audited claim involves numeric metadata.) -/
def numIsZero (lx : List Char) : Bool :=
  let lx1 := match lx with | '-' :: r => r | _ => lx
  (lx1.takeWhile (fun c => c != 'e' && c != 'E')).all (fun c => c == '0' || c == '.')

/-- JavaScript falsiness of a parsed JSON value, for the `||` defaults
of audit.mjs lines 52 and 94. -/
def jsFalsy : Json → Bool
  | Json.null => true
  | Json.bool b => !b
  | Json.num lx => numIsZero lx
  | Json.str s => s.isEmpty
  | Json.arr _ => false
  | Json.obj _ => false

/-- Fallback value of `fm._meta || {}` when the `metadata` field is
absent or empty: a header line may itself have assigned a (string)
value to the key `_meta`, which survives; otherwise the default is the
empty object. -/
def metaUnderscore (entries : List (List Char × List Char)) : Json :=
  match fmLookup entries (String.toList "_meta") with
  | some u => if u ≠ [] then Json.str u else Json.obj []
  | none => Json.obj []

/-- Value of `fm._meta || {}` for a skill record (audit.mjs lines 51-53
and 94): when `metadata` is present and truthy (non-empty), `JSON.parse`
it — a throw, or a falsy parse result, degrades to the empty object;
otherwise fall back to `metaUnderscore`. -/
def metaOf (entries : List (List Char × List Char)) : Json :=
  match fmLookup entries (String.toList "metadata") with
  | some m =>
    if m ≠ [] then
      match jsonParse m with
      | some v => if jsFalsy v then Json.obj [] else v
      | none => Json.obj []
    else metaUnderscore entries
  | none => metaUnderscore entries

/-! ### Skill repository reader and result collection
(audit.mjs lines 80-100 and 179-188) -/

/-- One skill record (audit.mjs lines 90-96 plus the `source` label
added at line 184; the unused `path` field is omitted). -/
structure Skill where
  dirName : List Char
  name : List Char
  description : List Char
  meta : Json
  source : List Char

/-- One entry of a configured root directory, as the reader observes it:
its name, whether it is a subdirectory, whether it directly contains a
`SKILL.md` file, and that file's text when present. -/
structure SubDir where
  name : List Char
  isDir : Bool
  hasSkill : Bool
  content : List Char
deriving DecidableEq

/-- One configured root directory: whether it exists, its display label
(`dir.replace(homedir(), "~")`), and its entries. -/
structure Root where
  present : Bool
  label : List Char
  subdirs : List SubDir
deriving DecidableEq

/-- Record construction for one directory entry (audit.mjs lines 84-97):
only subdirectories containing `SKILL.md` yield a record; a missing or
empty `name` value falls back to the directory name (JavaScript `||`),
a missing `description` becomes empty. -/
def skillOfSubdir (e : SubDir) : Option Skill :=
  if e.isDir && e.hasSkill then
    let fm := parseFrontmatter e.content
    some
      { dirName := e.name
        name :=
          match fmLookup fm (String.toList "name") with
          | some v => if v = [] then e.name else v
          | none => e.name
        description := (fmLookup fm (String.toList "description")).getD []
        meta := metaOf fm
        source := [] }
  else none

/-- Model of `getSkillsFromDir` (audit.mjs lines 80-100): a non-existent
root yields no skills, otherwise each qualifying entry yields a record. -/
def getSkillsFromDir (r : Root) : List Skill :=
  if r.present then r.subdirs.filterMap skillOfSubdir else []

/-- Model of `Map.prototype.set` on an association list with unique
keys: an existing key keeps its position and gets the new value, a new
key is appended. -/
def setEntry : List (List Char × Skill) → List Char → Skill → List (List Char × Skill)
  | [], k, v => [(k, v)]
  | p :: rest, k, v => if p.1 == k then (k, v) :: rest else p :: setEntry rest k v

/-- The spread `{ ...s, source: dirLabel }` of audit.mjs line 184. -/
def withSource (label : List Char) (s : Skill) : Skill :=
  { s with source := label }

/-- Model of the collection loop of audit.mjs lines 179-186: for each
root in order, insert each of its skills into the map keyed by directory
name, later writes overwriting earlier ones. -/
def collectMap (roots : List Root) : List (List Char × Skill) :=
  roots.foldl
    (fun m r =>
      ((getSkillsFromDir r).map (withSource r.label)).foldl
        (fun m2 s => setEntry m2 s.dirName s) m)
    []

/-- Stable insertion into a sorted list (an element is placed before the
first entry not strictly below it). -/
def insertSorted {α : Type*} (le : α → α → Bool) (a : α) : List α → List α
  | [] => [a]
  | b :: t => if le a b then a :: b :: t else b :: insertSorted le a t

/-- Stable insertion sort.  `Array.prototype.sort` with a consistent
comparator is specified to produce the stable sorted permutation, which
this realizes. -/
def insertionSort {α : Type*} (le : α → α → Bool) : List α → List α
  | [] => []
  | a :: t => insertSorted le a (insertionSort le t)

/-- Model of audit.mjs line 188: the map's values in insertion order,
sorted by directory name.  The comparator `le` models
`a.dirName.localeCompare(b.dirName) <= 0`; `localeCompare` is a
locale-dependent total preorder, so it is a parameter constrained in the
theorems to be total and transitive. -/
def allSkills (le : List Char → List Char → Bool) (roots : List Root) : List Skill :=
  insertionSort (fun a b => le a.dirName b.dirName)
    ((collectMap roots).map (fun p => p.2))

/-- Names of the skill directories of one root, written from the spec's
words: the subdirectories that directly contain a `SKILL.md` file (none
for a non-existent root, which contains nothing). -/
def skillNamesOfRoot (r : Root) : List (List Char) :=
  if r.present then
    (r.subdirs.filter (fun e => e.isDir && e.hasSkill)).map (fun e => e.name)
  else []

/-- All skill directory names across the configured roots, in order. -/
def allNames : List Root → List (List Char)
  | [] => []
  | r :: rest => skillNamesOfRoot r ++ allNames rest

/-- The unique skill directory names across the configured roots. -/
def uniqueNames (roots : List Root) : List (List Char) :=
  (allNames roots).dedup

/-- The full sequence of map writes the collection loop performs, in
order: every skill of every root (with its root's label), roots in
configuration order. -/
def writeSeq : List Root → List Skill
  | [] => []
  | r :: rest => (getSkillsFromDir r).map (withSource r.label) ++ writeSeq rest

/-- Specification-side description of last-write-wins, from the spec's
words — later directories' entries overwrite earlier ones: the record
for a name is the last write for that name. -/
def specLastRecord (roots : List Root) (n : List Char) : Option Skill :=
  (writeSeq roots).reverse.find? (fun s => s.dirName == n)

/-- Lookup in the association-list map. -/
def mapLookup (m : List (List Char × Skill)) (k : List Char) : Option Skill :=
  (m.find? (fun p => p.1 == k)).map (fun p => p.2)

/-- The collection loop as a single fold over the write sequence. -/
def applyWrites (ws : List Skill) (m : List (List Char × Skill)) : List (List Char × Skill) :=
  ws.foldl (fun m2 s => setEntry m2 s.dirName s) m

/-- Everything of a skill record the report reads, except the declared
`name` field: the directory name (grouping key, sort key and displayed
identity), the description, the source label, and the metadata value
(whence emoji, required bins/envs, and the health/usage/hub inputs). -/
def rowView (s : Skill) : List Char × List Char × List Char × Json :=
  (s.dirName, s.description, s.source, s.meta)

/-- Two directory entries that agree on everything the reader uses
except possibly the parsed `name` field. -/
def SubSim (e1 e2 : SubDir) : Prop :=
  e1.name = e2.name ∧ e1.isDir = e2.isDir ∧ e1.hasSkill = e2.hasSkill ∧
  ∀ k, k ≠ String.toList "name" →
    fmLookup (parseFrontmatter e1.content) k = fmLookup (parseFrontmatter e2.content) k

/-- Two roots whose descriptor sets differ at most in parsed `name`
fields. -/
def RootSim (r1 r2 : Root) : Prop :=
  r1.present = r2.present ∧ r1.label = r2.label ∧
  List.Forall₂ SubSim r1.subdirs r2.subdirs

/-- Pointwise property of all elements of a list, as an iterated
conjunction. -/
def ListAll {α : Type*} (p : α → Prop) : List α → Prop
  | [] => True
  | a :: t => p a ∧ ListAll p t

/-- Sample configuration used by concrete witnesses: two roots, the
second overriding the first root's `zed` skill. -/
def sampleRoots : List Root :=
  [⟨true, String.toList "~/one",
    [⟨String.toList "zed", true, true, String.toList "---\nname: zed-one\n---"⟩,
     ⟨String.toList "alpha", true, true, String.toList "---\nname: alpha\n---"⟩]⟩,
   ⟨true, String.toList "~/two",
    [⟨String.toList "zed", true, true, String.toList "---\nname: zed-two\n---"⟩]⟩]

/-- Sample pair of descriptor sets for the renaming witness: identical
except for the `name` value of the single skill's descriptor. -/
def sampleRootsA : List Root :=
  [⟨true, String.toList "~/one",
    [⟨String.toList "alpha", true, true, String.toList "---\nname: one\n---"⟩]⟩]

/-- Companion of `sampleRootsA` with the declared name changed. -/
def sampleRootsB : List Root :=
  [⟨true, String.toList "~/one",
    [⟨String.toList "alpha", true, true, String.toList "---\nname: two\n---"⟩]⟩]

/-! ## Theorems -/

/-! ### Recommendation engine -/

/-- Case coverage of the recommendation chain. -/
theorem recommend_cases (health : HealthResult) (usage : Nat) (hub : HubResult) :
    recommend health usage hub = "keep" ∨ recommend health usage hub = "review" ∨
      recommend health usage hub = "remove" := by
  unfold recommend
  split_ifs <;> simp

/-- The tally's `update` slot never moves when no recommendation is the
string `"update"`. -/
theorem tally_foldl_update (recs : List String) :
    ∀ t : Tally, (∀ r ∈ recs, r ≠ "update") → (recs.foldl tallyStep t).update = t.update := by
  induction recs with
  | nil => intro t _; rfl
  | cons r rest ih =>
    intro t h
    have hr : r ≠ "update" := h r (List.mem_cons_self r rest)
    have hrest : ∀ x ∈ rest, x ≠ "update" := fun x hx => h x (List.mem_cons_of_mem r hx)
    have hstep : (tallyStep t r).update = t.update := by
      unfold tallyStep
      split_ifs <;> simp_all
    rw [List.foldl_cons, ih (tallyStep t r) hrest, hstep]

/-- Claim C1: whenever at least one declared required executable is
missing (`missingBins` non-empty), the recommendation is `remove`, for
every usage count and every hub result. -/
theorem recommend_remove_of_missingBins (health : HealthResult) (usage : Nat)
    (hub : HubResult) (h : health.missingBins ≠ []) :
    recommend health usage hub = "remove" := by
  unfold recommend
  rw [if_pos (List.length_pos.mpr h)]

/-- Witness for C1 at a concrete input. -/
theorem recommend_remove_of_missingBins_witness :
    (["zzznotarealbin"] : List String) ≠ [] ∧
      recommend ⟨["zzznotarealbin"], []⟩ 5 ⟨true, "1.0.0"⟩ = "remove" :=
  ⟨by decide,
   recommend_remove_of_missingBins ⟨["zzznotarealbin"], []⟩ 5 ⟨true, "1.0.0"⟩ (by decide)⟩

/-- Claim C2: with no missing required executable and a hub version
other than `"not found"`, `"n/a"` and `"error"`, the recommendation is
`keep` exactly when the usage count is positive and `review` when it is
zero. -/
theorem recommend_hub_version (health : HealthResult) (usage : Nat) (hub : HubResult)
    (h1 : health.missingBins = []) (h2 : hub.version ≠ "not found")
    (h3 : hub.version ≠ "n/a") (h4 : hub.version ≠ "error") :
    (0 < usage → recommend health usage hub = "keep") ∧
      (usage = 0 → recommend health usage hub = "review") := by
  unfold recommend
  rw [if_neg (by simp [h1]), if_pos ⟨h2, h3, h4⟩]
  constructor
  · intro h; rw [if_pos h]
  · intro h; rw [if_neg (by omega)]

/-- Witness for C2 at concrete inputs with usage 3 and usage 0. -/
theorem recommend_hub_version_witness :
    recommend ⟨[], []⟩ 3 ⟨true, "1.0.0"⟩ = "keep" ∧
      recommend ⟨[], []⟩ 0 ⟨true, "1.0.0"⟩ = "review" :=
  ⟨(recommend_hub_version ⟨[], []⟩ 3 ⟨true, "1.0.0"⟩ rfl (by decide) (by decide)
      (by decide)).1 (by decide),
   (recommend_hub_version ⟨[], []⟩ 0 ⟨true, "1.0.0"⟩ rfl (by decide) (by decide)
      (by decide)).2 rfl⟩

/-- Claim C3: every recommendation is one of `keep`, `review`, `remove`
and never `update`, and consequently the `update` slot of the tally of
any result set is zero. -/
theorem recommend_never_update :
    (∀ (health : HealthResult) (usage : Nat) (hub : HubResult),
        recommend health usage hub = "keep" ∨ recommend health usage hub = "review" ∨
          recommend health usage hub = "remove") ∧
    (∀ (health : HealthResult) (usage : Nat) (hub : HubResult),
        recommend health usage hub ≠ "update") ∧
    (∀ inputs : List (HealthResult × Nat × HubResult),
        (tallyOf (inputs.map (fun t => recommend t.1 t.2.1 t.2.2))).update = 0) := by
  have hne : ∀ (health : HealthResult) (usage : Nat) (hub : HubResult),
      recommend health usage hub ≠ "update" := by
    intro health usage hub
    rcases recommend_cases health usage hub with h | h | h <;> rw [h] <;> decide
  refine ⟨recommend_cases, hne, ?_⟩
  intro inputs
  unfold tallyOf
  exact tally_foldl_update _ ⟨0, 0, 0, 0⟩ (by
    intro r hr
    rcases List.mem_map.mp hr with ⟨t, _, rfl⟩
    exact hne t.1 t.2.1 t.2.2)

/-! ### Usage scanner: degenerate and throwing cases -/

/-- Claim C7: when the memory directory does not exist, `checkUsage`
returns the count 0 and no error, for every identifier (the early
return precedes even the pattern construction), every file list and
every cutoff — hence every window size, including 0. -/
theorem checkUsage_no_memory_dir (skillName : List Char) (files : List LogFile)
    (cutoff : Int) (cutoffStr : List Char) :
    checkUsage skillName false files cutoff cutoffStr = some 0 := rfl

/-- Claim C10 (failing input): the identifier is interpolated unescaped
into the `RegExp` source, so the directory name `my(skill` — an
unterminated group — makes the constructor throw and `checkUsage`
reject instead of returning a count, even over an empty, existing
memory directory. -/
theorem checkUsage_throws_on_unescaped_paren :
    compilePattern (String.toList "my(skill") = none ∧
      checkUsage (String.toList "my(skill") true [] 0 [] = none := by
  constructor <;> decide

/-! ### Usage scanner: the match pattern -/

/-- A prefix match survives appending further subject text. -/
theorem matchHere_append (pat : List Atom) :
    ∀ s t : List Char, matchHere pat s = true → matchHere pat (s ++ t) = true := by
  induction pat with
  | nil => intro s t _; rfl
  | cons a p ih =>
    intro s t h
    cases s with
    | nil => exact absurd h (by simp [matchHere])
    | cons c s' =>
      simp only [matchHere, Bool.and_eq_true] at h
      simp only [List.cons_append, matchHere, Bool.and_eq_true]
      exact ⟨h.1, ih s' t h.2⟩

/-- One compiled atom matches every variant of its identifier
character. -/
theorem atomMatches_of_variantChar (idc occ : Char) (a : Atom)
    (hc : compileChar idc = some a) (hv : isVariantChar idc occ = true) :
    atomMatches a occ = true := by
  unfold compileChar at hc
  unfold isVariantChar at hv
  by_cases h1 : idc = '-'
  · rw [if_pos h1] at hc
    rw [if_pos h1] at hv
    cases hc
    simp only [atomMatches]
    rcases Bool.or_eq_true_iff.mp hv with h | h
    · simp [of_decide_eq_true h]
    · simp [h]
  · rw [if_neg h1] at hc hv
    rcases Bool.or_eq_true_iff.mp hv with h | h
    · -- occ = idc
      have hocc : occ = idc := of_decide_eq_true h
      subst hocc
      by_cases h2 : isSafeLit occ
      · rw [if_pos h2] at hc; cases hc; simp [atomMatches]
      · rw [if_neg h2] at hc
        by_cases h3 : occ = '.'
        · rw [if_pos h3] at hc; cases hc; subst h3; decide
        · rw [if_neg h3] at hc; cases hc
    · -- both letters of equal lower case
      simp only [Bool.and_eq_true] at h
      obtain ⟨⟨hA, hB⟩, hL⟩ := h
      have hlow : occ.toLower = idc.toLower := of_decide_eq_true hL
      by_cases h2 : isSafeLit idc
      · rw [if_pos h2] at hc; cases hc
        simp [atomMatches, hlow]
      · -- idc is a letter, hence a safe literal: contradiction
        exact absurd (by simp [isSafeLit, Char.isAlphanum, hB]) h2

/-- The compiled pattern matches every variant of the identifier. -/
theorem matchHere_of_variant :
    ∀ (name occ : List Char) (pat : List Atom),
      compilePattern name = some pat → isVariant name occ = true →
      matchHere pat occ = true := by
  intro name
  induction name with
  | nil =>
    intro occ pat hc hv
    cases occ with
    | nil => cases hc; rfl
    | cons b t => exact absurd hv (by simp [isVariant])
  | cons c cs ih =>
    intro occ pat hc hv
    cases occ with
    | nil => exact absurd hv (by simp [isVariant])
    | cons b t =>
      simp only [isVariant, Bool.and_eq_true] at hv
      unfold compilePattern at hc
      cases ha : compileChar c with
      | none => rw [ha] at hc; exact absurd hc (by simp)
      | some a =>
        cases has : compilePattern cs with
        | none => rw [ha, has] at hc; exact absurd hc (by simp)
        | some as =>
          rw [ha, has] at hc
          cases hc
          simp only [matchHere, Bool.and_eq_true]
          exact ⟨atomMatches_of_variantChar c b a ha hv.1, ih t as has hv.2⟩

/-- Claim C5: the match pattern built from a skill identifier is
case-insensitive and treats every separator `-` as interchangeable with
whitespace or the separator itself, so it matches every such variant of
the identifier wherever it occurs as a prefix of remaining log text. -/
theorem pattern_matches_identifier_variants (name occ rest : List Char) (pat : List Atom)
    (h1 : compilePattern name = some pat) (h2 : isVariant name occ = true) :
    matchHere pat (occ ++ rest) = true :=
  matchHere_append pat occ rest (matchHere_of_variant name occ pat h1 h2)

/-- Witness for C5: the identifier `my-skill` compiled and matched
against the differently-cased, space-separated occurrence `My Skill`
followed by further prose. -/
theorem pattern_matches_identifier_variants_witness :
    (compilePattern (String.toList "my-skill") =
        some [Atom.lit 'm', Atom.lit 'y', Atom.spaceDash, Atom.lit 's', Atom.lit 'k',
          Atom.lit 'i', Atom.lit 'l', Atom.lit 'l'] ∧
      isVariant (String.toList "my-skill") (String.toList "My Skill") = true) ∧
    matchHere
      [Atom.lit 'm', Atom.lit 'y', Atom.spaceDash, Atom.lit 's', Atom.lit 'k',
        Atom.lit 'i', Atom.lit 'l', Atom.lit 'l']
      (String.toList "My Skill" ++ String.toList " was used") = true :=
  ⟨⟨by decide, by decide⟩,
   pattern_matches_identifier_variants (String.toList "my-skill") (String.toList "My Skill")
     (String.toList " was used") _ (by decide) (by decide)⟩

/-! ### Skill repository reader: unparseable headers -/

/-- Claim C9: a `SKILL.md` whose content has no parseable leading
header block is still inventoried, with the directory name as its name,
an empty description and an empty metadata mapping. -/
theorem unparseable_header_still_inventoried (r : Root) (e : SubDir)
    (h1 : r.present = true) (h2 : e ∈ r.subdirs) (h3 : e.isDir = true)
    (h4 : e.hasSkill = true) (h5 : findHeader e.content = none) :
    ({ dirName := e.name, name := e.name, description := [],
       meta := Json.obj [], source := [] } : Skill) ∈ getSkillsFromDir r := by
  have hfm : parseFrontmatter e.content = [] := by
    unfold parseFrontmatter; rw [h5]
  unfold getSkillsFromDir
  rw [if_pos h1]
  refine List.mem_filterMap.mpr ⟨e, h2, ?_⟩
  unfold skillOfSubdir
  rw [if_pos (by rw [h3, h4]; rfl)]
  simp [hfm, fmLookup, metaOf, metaUnderscore]

/-- Witness for C9 at a concrete descriptor whose content has no header. -/
theorem unparseable_header_still_inventoried_witness :
    ((⟨true, [], [⟨String.toList "alpha", true, true, String.toList "just notes"⟩]⟩ : Root).present
        = true ∧
      findHeader (String.toList "just notes") = none) ∧
    ({ dirName := String.toList "alpha", name := String.toList "alpha", description := [],
       meta := Json.obj [], source := [] } : Skill) ∈
      getSkillsFromDir ⟨true, [], [⟨String.toList "alpha", true, true, String.toList "just notes"⟩]⟩ :=
  ⟨⟨rfl, by decide⟩,
   unparseable_header_still_inventoried
     ⟨true, [], [⟨String.toList "alpha", true, true, String.toList "just notes"⟩]⟩
     ⟨String.toList "alpha", true, true, String.toList "just notes"⟩
     rfl (by simp) rfl rfl (by decide)⟩

/-! ### Usage scanner: file inclusion and summation -/

/-- The scan step adds exactly the file's match count when the file is
included, and nothing otherwise. -/
theorem scanStep_eq (pat : List Atom) (cutoff : Int) (cutoffStr : List Char)
    (count : Nat) (f : LogFile) :
    scanStep pat cutoff cutoffStr count f =
      count + (if includedFile cutoff cutoffStr f then countMatches pat f.content else 0) := by
  unfold scanStep includedFile
  cases hd : datedName f.name with
  | some d =>
    by_cases hs : strLe cutoffStr d = true
    · simp [hs]
    · simp [hs]
  | none =>
    by_cases hsuf :
        (['.', 'l', 'o', 'g'] <:+ f.name) ∨ (['.', 'm', 'd'] <:+ f.name)
    · by_cases hm : cutoff ≤ f.mtime
      · simp [hsuf, hm]
      · simp [hsuf, hm]
    · simp [hsuf]

/-- The scan loop computes the sum of match counts over included files. -/
theorem foldl_scanStep (pat : List Atom) (cutoff : Int) (cutoffStr : List Char) :
    ∀ (files : List LogFile) (acc : Nat),
      files.foldl (scanStep pat cutoff cutoffStr) acc =
        acc + ((files.filter (includedFile cutoff cutoffStr)).map
          (fun f => countMatches pat f.content)).sum := by
  intro files
  induction files with
  | nil => intro acc; simp
  | cons f fs ih =>
    intro acc
    rw [List.foldl_cons, scanStep_eq, ih, List.filter_cons]
    by_cases h : includedFile cutoff cutoffStr f = true
    · rw [if_pos h, if_pos h, List.map_cons, List.sum_cons]; omega
    · rw [if_neg h, if_neg (by simpa using h)]; simp

/-- Claim C4: over an existing memory directory, the usage count is the
sum, over exactly the included files, of the non-overlapping pattern
match counts of their full text — a strictly dated `YYYY-MM-DD.md` file
being included exactly when its date string is lexicographically at or
after the cutoff date string, and any other `.log` or `.md` file exactly
when its modification time is at or after the cutoff instant. -/
theorem checkUsage_counts_included_files (skillName : List Char) (pat : List Atom)
    (files : List LogFile) (cutoff : Int) (cutoffStr : List Char)
    (h : compilePattern skillName = some pat) :
    checkUsage skillName true files cutoff cutoffStr =
      some (((files.filter (includedFile cutoff cutoffStr)).map
        (fun f => countMatches pat f.content)).sum) := by
  unfold checkUsage
  rw [h]
  simp [foldl_scanStep]

/-- Witness for C4: the identifier `ab` scanned over four files — a
dated file at the cutoff date (included, two mentions), a dated file
before it (excluded), a stale-named log with a recent modification time
(included, one mention), and a recently modified `.txt` file (excluded
by extension). -/
theorem checkUsage_counts_included_files_witness :
    compilePattern (String.toList "ab") = some [Atom.lit 'a', Atom.lit 'b'] ∧
      checkUsage (String.toList "ab") true
        [⟨String.toList "2024-01-05.md", 0, String.toList "ab then AB"⟩,
         ⟨String.toList "2024-01-04.md", 99, String.toList "ab"⟩,
         ⟨String.toList "old.log", 10, String.toList "one ab here"⟩,
         ⟨String.toList "new.txt", 10, String.toList "ab"⟩]
        5 (String.toList "2024-01-05") =
      some
        ((([⟨String.toList "2024-01-05.md", 0, String.toList "ab then AB"⟩,
            ⟨String.toList "2024-01-04.md", 99, String.toList "ab"⟩,
            ⟨String.toList "old.log", 10, String.toList "one ab here"⟩,
            ⟨String.toList "new.txt", 10, String.toList "ab"⟩] :
              List LogFile).filter (includedFile 5 (String.toList "2024-01-05"))).map
          (fun f => countMatches [Atom.lit 'a', Atom.lit 'b'] f.content)).sum :=
  ⟨by decide,
   checkUsage_counts_included_files (String.toList "ab") [Atom.lit 'a', Atom.lit 'b']
     [⟨String.toList "2024-01-05.md", 0, String.toList "ab then AB"⟩,
      ⟨String.toList "2024-01-04.md", 99, String.toList "ab"⟩,
      ⟨String.toList "old.log", 10, String.toList "one ab here"⟩,
      ⟨String.toList "new.txt", 10, String.toList "ab"⟩]
     5 (String.toList "2024-01-05") (by decide)⟩

/-! ### Sorting lemmas -/

/-- Stable insertion permutes. -/
theorem perm_insertSorted {α : Type*} (le : α → α → Bool) (a : α) (l : List α) :
    List.Perm (insertSorted le a l) (a :: l) := by
  induction l with
  | nil => exact List.Perm.refl _
  | cons b t ih =>
    unfold insertSorted
    by_cases h : le a b = true
    · rw [if_pos h]
    · rw [if_neg h]
      exact (ih.cons b).trans (List.Perm.swap a b t)

/-- Insertion sort permutes. -/
theorem perm_insertionSort {α : Type*} (le : α → α → Bool) (l : List α) :
    List.Perm (insertionSort le l) l := by
  induction l with
  | nil => exact List.Perm.refl _
  | cons a t ih =>
    exact (perm_insertSorted le a (insertionSort le t)).trans (ih.cons a)

/-- Stable insertion preserves sortedness for a total transitive
comparator. -/
theorem sorted_insertSorted {α : Type*} (le : α → α → Bool)
    (htot : ∀ a b, le a b = true ∨ le b a = true)
    (htr : ∀ a b c, le a b = true → le b c = true → le a c = true)
    (a : α) (l : List α) (h : l.Pairwise (fun x y => le x y = true)) :
    (insertSorted le a l).Pairwise (fun x y => le x y = true) := by
  induction l with
  | nil => simp [insertSorted]
  | cons b t ih =>
    rcases List.pairwise_cons.mp h with ⟨hb, ht⟩
    unfold insertSorted
    by_cases hab : le a b = true
    · rw [if_pos hab]
      refine List.pairwise_cons.mpr ⟨?_, h⟩
      intro x hx
      rcases List.mem_cons.mp hx with h1 | hx
      · rw [h1]; exact hab
      · exact htr a b x hab (hb x hx)
    · rw [if_neg hab]
      have hba : le b a = true := (htot a b).resolve_left hab
      refine List.pairwise_cons.mpr ⟨?_, ih ht⟩
      intro x hx
      rcases List.mem_cons.mp ((perm_insertSorted le a t).subset hx) with rfl | hx2
      · exact hba
      · exact hb x hx2

/-- Insertion sort sorts, for a total transitive comparator. -/
theorem sorted_insertionSort {α : Type*} (le : α → α → Bool)
    (htot : ∀ a b, le a b = true ∨ le b a = true)
    (htr : ∀ a b c, le a b = true → le b c = true → le a c = true) :
    ∀ l : List α, (insertionSort le l).Pairwise (fun x y => le x y = true) := by
  intro l
  induction l with
  | nil => simp [insertionSort]
  | cons a t ih => exact sorted_insertSorted le htot htr a _ ih

/-- Stable insertion commutes with mapping when the comparator factors
through the mapped view. -/
theorem map_insertSorted {α β : Type*} (f : α → β) (cmp : α → α → Bool)
    (cmpB : β → β → Bool) (hc : ∀ a b, cmp a b = cmpB (f a) (f b)) (a : α) :
    ∀ l : List α, (insertSorted cmp a l).map f = insertSorted cmpB (f a) (l.map f) := by
  intro l
  induction l with
  | nil => rfl
  | cons b t ih =>
    simp only [insertSorted, List.map_cons]
    rw [hc a b]
    by_cases h : cmpB (f a) (f b) = true
    · rw [if_pos h, if_pos h]
      simp
    · rw [if_neg h, if_neg h, List.map_cons, ih]

/-- Insertion sort commutes with mapping when the comparator factors
through the mapped view. -/
theorem map_insertionSort {α β : Type*} (f : α → β) (cmp : α → α → Bool)
    (cmpB : β → β → Bool) (hc : ∀ a b, cmp a b = cmpB (f a) (f b)) :
    ∀ l : List α, (insertionSort cmp l).map f = insertionSort cmpB (l.map f) := by
  intro l
  induction l with
  | nil => rfl
  | cons a t ih =>
    show (insertSorted cmp a (insertionSort cmp t)).map f = _
    rw [map_insertSorted f cmp cmpB hc a, ih]
    rfl

/-- Unfolding of `ListAll` to universally quantified membership. -/
theorem listAll_iff {α : Type*} (p : α → Prop) :
    ∀ l : List α, ListAll p l ↔ ∀ a ∈ l, p a := by
  intro l
  induction l with
  | nil => simp [ListAll]
  | cons a t ih => simp [ListAll, ih]

/-! ### Association-map lemmas for the collection loop -/

/-- Equation: a write into the empty map. -/
theorem setEntry_nil (k : List Char) (v : Skill) : setEntry [] k v = [(k, v)] := rfl

/-- Equation: a write hitting the head entry replaces it in place. -/
theorem setEntry_cons_pos (p : List Char × Skill) (rest : List (List Char × Skill))
    (k : List Char) (v : Skill) (h : p.1 = k) :
    setEntry (p :: rest) k v = (k, v) :: rest := by
  simp only [setEntry]
  rw [if_pos (by simp [h])]

/-- Equation: a write missing the head entry recurses. -/
theorem setEntry_cons_neg (p : List Char × Skill) (rest : List (List Char × Skill))
    (k : List Char) (v : Skill) (h : ¬p.1 = k) :
    setEntry (p :: rest) k v = p :: setEntry rest k v := by
  simp only [setEntry]
  rw [if_neg (by simp [h])]

/-- Lookup after a map write: the written key reads the new value,
every other key is unaffected. -/
theorem mapLookup_setEntry (k : List Char) (v : Skill) (k2 : List Char) :
    ∀ m : List (List Char × Skill),
      mapLookup (setEntry m k v) k2 = if k2 = k then some v else mapLookup m k2 := by
  intro m
  induction m with
  | nil =>
    by_cases h : k2 = k
    · subst h; simp [setEntry, mapLookup]
    · have hb : (k == k2) = false := by simp [Ne.symm h]
      simp [setEntry, mapLookup, List.find?, hb, h]
  | cons p rest ih =>
    by_cases hp : p.1 = k
    · rw [setEntry_cons_pos p rest k v hp]
      by_cases h2 : k2 = k
      · subst h2; simp [mapLookup, List.find?]
      · have ha : (k == k2) = false := by simp [Ne.symm h2]
        have hb : (p.1 == k2) = false := by simp [hp, Ne.symm h2]
        simp [mapLookup, List.find?, ha, hb, h2]
    · rw [setEntry_cons_neg p rest k v hp]
      by_cases h2 : k2 = p.1
      · subst h2
        have hb : (p.1 == p.1) = true := by simp
        have hnk : ¬p.1 = k := hp
        simp [mapLookup, List.find?, hb, hnk]
      · have hb : (p.1 == k2) = false := by simp [Ne.symm h2]
        have lhs : mapLookup (p :: setEntry rest k v) k2 = mapLookup (setEntry rest k v) k2 := by
          simp [mapLookup, List.find?, hb]
        have rhs : mapLookup (p :: rest) k2 = mapLookup rest k2 := by
          simp [mapLookup, List.find?, hb]
        rw [lhs, rhs]
        exact ih

/-- Keys after a map write: unchanged for an existing key, appended for
a new one. -/
theorem keys_setEntry (k : List Char) (v : Skill) :
    ∀ m : List (List Char × Skill),
      (setEntry m k v).map (fun p => p.1) =
        if k ∈ m.map (fun p => p.1) then m.map (fun p => p.1)
        else m.map (fun p => p.1) ++ [k] := by
  intro m
  induction m with
  | nil => simp [setEntry]
  | cons p rest ih =>
    by_cases hp : p.1 = k
    · rw [setEntry_cons_pos p rest k v hp]
      rw [if_pos (hp ▸ List.mem_map_of_mem (fun q => q.1) (List.mem_cons_self p rest))]
      simp [hp]
    · rw [setEntry_cons_neg p rest k v hp]
      simp only [List.map_cons]
      rw [ih]
      have hiff : k ∈ p.1 :: rest.map (fun p => p.1) ↔ k ∈ rest.map (fun p => p.1) := by
        constructor
        · intro h
          rcases List.mem_cons.mp h with h1 | h2
          · exact absurd h1.symm hp
          · exact h2
        · exact List.mem_cons_of_mem p.1
      by_cases hk : k ∈ rest.map (fun p => p.1)
      · rw [if_pos hk, if_pos (hiff.mpr hk)]
      · rw [if_neg hk, if_neg (fun hc => hk (hiff.mp hc))]
        simp

/-- Membership in the keys after a map write. -/
theorem mem_keys_setEntry (k : List Char) (v : Skill) (k2 : List Char)
    (m : List (List Char × Skill)) :
    k2 ∈ (setEntry m k v).map (fun p => p.1) ↔ k2 ∈ m.map (fun p => p.1) ∨ k2 = k := by
  rw [keys_setEntry]
  split_ifs with hk
  · constructor
    · exact Or.inl
    · rintro (h | rfl)
      · exact h
      · exact hk
  · rw [List.mem_append, List.mem_singleton]

/-- A map write preserves key uniqueness. -/
theorem nodup_keys_setEntry (k : List Char) (v : Skill) (m : List (List Char × Skill))
    (h : (m.map (fun p => p.1)).Nodup) :
    ((setEntry m k v).map (fun p => p.1)).Nodup := by
  rw [keys_setEntry]
  split_ifs with hk
  · exact h
  · refine List.Nodup.append h (List.nodup_singleton k) ?_
    intro a ha hb
    rw [List.mem_singleton] at hb
    exact hk (hb ▸ ha)

/-- A map write with a record keyed by its own directory name preserves
the invariant that every entry is so keyed. -/
theorem dirName_key_setEntry (k : List Char) (v : Skill) (hv : v.dirName = k) :
    ∀ m : List (List Char × Skill), (∀ p ∈ m, p.2.dirName = p.1) →
      ∀ p ∈ setEntry m k v, p.2.dirName = p.1 := by
  intro m
  induction m with
  | nil =>
    intro _ p hp
    rcases List.mem_singleton.mp hp with rfl
    exact hv
  | cons q rest ih =>
    intro hm p hp
    have hq := hm q (List.mem_cons_self q rest)
    have hrest : ∀ p ∈ rest, p.2.dirName = p.1 := fun p hp => hm p (List.mem_cons_of_mem q hp)
    by_cases hqk : q.1 = k
    · rw [setEntry_cons_pos q rest k v hqk] at hp
      rcases List.mem_cons.mp hp with rfl | hp
      · exact hv
      · exact hrest p hp
    · rw [setEntry_cons_neg q rest k v hqk] at hp
      rcases List.mem_cons.mp hp with rfl | hp
      · exact hq
      · exact ih hrest p hp

/-- In a map with unique keys, every entry is found by lookup at its
key. -/
theorem mapLookup_of_mem :
    ∀ (m : List (List Char × Skill)) (p : List Char × Skill),
      (m.map (fun q => q.1)).Nodup → p ∈ m → mapLookup m p.1 = some p.2 := by
  intro m
  induction m with
  | nil => intro p _ hp; cases hp
  | cons q rest ih =>
    intro p hnd hp
    rcases List.mem_cons.mp hp with rfl | hp
    · simp [mapLookup, List.find?]
    · rw [List.map_cons] at hnd
      have hnd' := List.nodup_cons.mp hnd
      have hne : (q.1 == p.1) = false := by
        simp only [beq_eq_false_iff_ne, ne_eq]
        intro he
        exact hnd'.1 (he ▸ List.mem_map_of_mem (fun q => q.1) hp)
      have lhs : mapLookup (q :: rest) p.1 = mapLookup rest p.1 := by
        simp [mapLookup, List.find?, hne]
      rw [lhs]
      exact ih p hnd'.2 hp

/-- Lookup after the whole write sequence: the last write for the key
if any, else the original map. -/
theorem mapLookup_applyWrites :
    ∀ (ws : List Skill) (m : List (List Char × Skill)) (k : List Char),
      mapLookup (applyWrites ws m) k =
        (ws.reverse.find? (fun s => s.dirName == k)).or (mapLookup m k) := by
  intro ws
  induction ws with
  | nil => intro m k; rfl
  | cons s rest ih =>
    intro m k
    show mapLookup (applyWrites rest (setEntry m s.dirName s)) k = _
    rw [ih, List.reverse_cons, List.find?_append, Option.or_assoc]
    congr 1
    rw [mapLookup_setEntry]
    by_cases hk : k = s.dirName
    · subst hk
      simp [List.find?]
    · have : (s.dirName == k) = false := by simp [Ne.symm hk]
      simp [List.find?, this, hk]

/-- Keys present after the whole write sequence. -/
theorem mem_keys_applyWrites :
    ∀ (ws : List Skill) (m : List (List Char × Skill)) (k : List Char),
      k ∈ (applyWrites ws m).map (fun p => p.1) ↔
        k ∈ m.map (fun p => p.1) ∨ k ∈ ws.map (fun s => s.dirName) := by
  intro ws
  induction ws with
  | nil =>
    intro m k
    rw [show applyWrites [] m = m from rfl,
      show ([] : List Skill).map (fun s => s.dirName) = [] from rfl]
    exact ⟨Or.inl, fun h => h.resolve_right (List.not_mem_nil k)⟩
  | cons s rest ih =>
    intro m k
    have hstep : applyWrites (s :: rest) m = applyWrites rest (setEntry m s.dirName s) := rfl
    rw [hstep, ih, mem_keys_setEntry, List.map_cons, List.mem_cons, or_assoc]

/-- The write sequence preserves key uniqueness. -/
theorem nodup_keys_applyWrites :
    ∀ (ws : List Skill) (m : List (List Char × Skill)),
      (m.map (fun p => p.1)).Nodup → ((applyWrites ws m).map (fun p => p.1)).Nodup := by
  intro ws
  induction ws with
  | nil => intro m h; exact h
  | cons s rest ih =>
    intro m h
    exact ih (setEntry m s.dirName s) (nodup_keys_setEntry s.dirName s m h)

/-- The write sequence preserves the entries-keyed-by-dirName invariant. -/
theorem dirName_key_applyWrites :
    ∀ (ws : List Skill) (m : List (List Char × Skill)),
      (∀ p ∈ m, p.2.dirName = p.1) → ∀ p ∈ applyWrites ws m, p.2.dirName = p.1 := by
  intro ws
  induction ws with
  | nil => intro m h; exact h
  | cons s rest ih =>
    intro m h
    exact ih (setEntry m s.dirName s) (dirName_key_setEntry s.dirName s rfl m h)

/-- The nested collection loop is the fold of the flattened write
sequence. -/
theorem collectMap_eq_applyWrites (roots : List Root) :
    collectMap roots = applyWrites (writeSeq roots) [] := by
  suffices h : ∀ (rs : List Root) (m : List (List Char × Skill)),
      rs.foldl
        (fun m r =>
          ((getSkillsFromDir r).map (withSource r.label)).foldl
            (fun m2 s => setEntry m2 s.dirName s) m)
        m = applyWrites (writeSeq rs) m by
    exact h roots []
  intro rs
  induction rs with
  | nil => intro m; rfl
  | cons r rest ih =>
    intro m
    rw [List.foldl_cons]
    show rest.foldl _ (applyWrites ((getSkillsFromDir r).map (withSource r.label)) m) = _
    rw [ih]
    show applyWrites (writeSeq rest) _ =
      ((getSkillsFromDir r).map (withSource r.label) ++ writeSeq rest).foldl
        (fun m2 s => setEntry m2 s.dirName s) m
    rw [List.foldl_append]
    rfl

/-- Directory names of the records produced for one root are exactly the
names of its qualifying subdirectories. -/
theorem filterMap_skill_names :
    ∀ l : List SubDir,
      (l.filterMap skillOfSubdir).map (fun s => s.dirName) =
        (l.filter (fun e => e.isDir && e.hasSkill)).map (fun e => e.name) := by
  intro l
  induction l with
  | nil => rfl
  | cons e rest ih =>
    rw [List.filterMap_cons, List.filter_cons]
    by_cases he : (e.isDir && e.hasSkill) = true
    · have hs : skillOfSubdir e =
          some
            { dirName := e.name
              name :=
                match fmLookup (parseFrontmatter e.content) (String.toList "name") with
                | some v => if v = [] then e.name else v
                | none => e.name
              description := (fmLookup (parseFrontmatter e.content) (String.toList "description")).getD []
              meta := metaOf (parseFrontmatter e.content)
              source := [] } := by
        unfold skillOfSubdir
        rw [if_pos he]
      rw [hs, if_pos he]
      simp only [List.map_cons, ih]
    · have hs : skillOfSubdir e = none := by
        unfold skillOfSubdir
        rw [if_neg he]
      rw [hs, if_neg he]
      exact ih

/-- Directory names of one root's record list. -/
theorem map_dirName_getSkills (r : Root) :
    (getSkillsFromDir r).map (fun s => s.dirName) = skillNamesOfRoot r := by
  unfold getSkillsFromDir skillNamesOfRoot
  by_cases hp : r.present = true
  · rw [if_pos hp, if_pos hp]
    exact filterMap_skill_names r.subdirs
  · rw [if_neg hp, if_neg hp]
    rfl

/-- Directory names of the write sequence are all configured skill
names, in order. -/
theorem map_dirName_writeSeq :
    ∀ roots : List Root, (writeSeq roots).map (fun s => s.dirName) = allNames roots := by
  intro roots
  induction roots with
  | nil => rfl
  | cons r rest ih =>
    show ((getSkillsFromDir r).map (withSource r.label) ++ writeSeq rest).map (fun s => s.dirName)
        = skillNamesOfRoot r ++ allNames rest
    rw [List.map_append, ih, List.map_map]
    congr 1
    exact map_dirName_getSkills r

/-! ### A concrete comparator for witnesses -/

/-- Lexicographic order is total. -/
theorem strLe_total : ∀ a b : List Char, strLe a b = true ∨ strLe b a = true := by
  intro a
  induction a with
  | nil => intro b; exact Or.inl rfl
  | cons x s ih =>
    intro b
    cases b with
    | nil => exact Or.inr rfl
    | cons y t =>
      by_cases hxy : x.toNat = y.toNat
      · rcases ih t with h | h
        · exact Or.inl (by simp [strLe, hxy, h])
        · exact Or.inr (by simp [strLe, hxy.symm, h])
      · rcases Nat.lt_or_ge x.toNat y.toNat with h | h
        · exact Or.inl (by simp [strLe, hxy, h])
        · have hyx : ¬y.toNat = x.toNat := fun he => hxy he.symm
          have hlt : y.toNat < x.toNat := lt_of_le_of_ne h hyx
          exact Or.inr (by simp [strLe, hyx, hlt])

/-- Lexicographic order is transitive. -/
theorem strLe_trans :
    ∀ a b c : List Char, strLe a b = true → strLe b c = true → strLe a c = true := by
  intro a
  induction a with
  | nil => intro b c _ _; rfl
  | cons x s ih =>
    intro b c hab hbc
    cases b with
    | nil => exact absurd hab (by simp [strLe])
    | cons y t =>
      cases c with
      | nil => exact absurd hbc (by simp [strLe])
      | cons z u =>
        simp only [strLe] at hab hbc ⊢
        by_cases hxy : x.toNat = y.toNat
        · rw [if_pos hxy] at hab
          by_cases hyz : y.toNat = z.toNat
          · rw [if_pos hyz] at hbc
            rw [if_pos (hxy.trans hyz)]
            exact ih t u hab hbc
          · rw [if_neg hyz] at hbc
            have hlt : y.toNat < z.toNat := of_decide_eq_true hbc
            rw [if_neg (by omega), decide_eq_true_eq]
            omega
        · rw [if_neg hxy] at hab
          have hlt : x.toNat < y.toNat := of_decide_eq_true hab
          by_cases hyz : y.toNat = z.toNat
          · rw [if_neg (by omega), decide_eq_true_eq]
            omega
          · rw [if_neg hyz] at hbc
            have hlt2 : y.toNat < z.toNat := of_decide_eq_true hbc
            rw [if_neg (by omega), decide_eq_true_eq]
            omega

/-! ### The report row set -/

/-- Claim C6: for every configured ordered list of roots and every
total transitive comparator (the locale collation), the result set has
exactly one row per unique skill directory name (the row names are
duplicate-free and a permutation of the unique names), each row is the
record of the last write for its name (later roots override earlier
ones), and the rows are ordered by directory name. -/
theorem report_rows_unique_lastwins_sorted (le : List Char → List Char → Bool)
    (roots : List Root)
    (htot : ∀ a b, le a b = true ∨ le b a = true)
    (htr : ∀ a b c, le a b = true → le b c = true → le a c = true) :
    ((allSkills le roots).map (fun s => s.dirName)).Nodup ∧
    List.Perm ((allSkills le roots).map (fun s => s.dirName)) (uniqueNames roots) ∧
    ListAll (fun s => specLastRecord roots s.dirName = some s) (allSkills le roots) ∧
    (allSkills le roots).Pairwise (fun a b => le a.dirName b.dirName = true) := by
  have hcm : collectMap roots = applyWrites (writeSeq roots) [] := collectMap_eq_applyWrites roots
  have hnd : ((applyWrites (writeSeq roots) []).map (fun p => p.1)).Nodup :=
    nodup_keys_applyWrites (writeSeq roots) [] List.nodup_nil
  have hinv : ∀ p ∈ applyWrites (writeSeq roots) [], p.2.dirName = p.1 :=
    dirName_key_applyWrites (writeSeq roots) [] (fun p hp => absurd hp (List.not_mem_nil p))
  have hperm : List.Perm (allSkills le roots)
      ((applyWrites (writeSeq roots) []).map (fun p => p.2)) := by
    unfold allSkills
    rw [hcm]
    exact perm_insertionSort _ _
  have hkeys : ((applyWrites (writeSeq roots) []).map (fun p => p.2)).map (fun s => s.dirName) =
      (applyWrites (writeSeq roots) []).map (fun p => p.1) := by
    rw [List.map_map]
    exact List.map_congr_left (fun p hp => hinv p hp)
  have hpermkeys : List.Perm ((allSkills le roots).map (fun s => s.dirName))
      ((applyWrites (writeSeq roots) []).map (fun p => p.1)) := by
    rw [← hkeys]
    exact hperm.map _
  have h1 : ((allSkills le roots).map (fun s => s.dirName)).Nodup :=
    hpermkeys.nodup_iff.mpr hnd
  have hmemkeys : ∀ k, k ∈ (applyWrites (writeSeq roots) []).map (fun p => p.1) ↔
      k ∈ allNames roots := by
    intro k
    rw [mem_keys_applyWrites, map_dirName_writeSeq]
    constructor
    · rintro (h | h)
      · exact absurd h (by simp)
      · exact h
    · exact Or.inr
  have h2 : List.Perm ((allSkills le roots).map (fun s => s.dirName)) (uniqueNames roots) := by
    refine hpermkeys.trans ?_
    refine (List.perm_ext_iff_of_nodup hnd (allNames roots).nodup_dedup).mpr ?_
    intro k
    rw [hmemkeys k, List.mem_dedup]
  have h3 : ∀ s ∈ allSkills le roots, specLastRecord roots s.dirName = some s := by
    intro s hs
    rcases List.mem_map.mp (hperm.subset hs) with ⟨p, hp, hps⟩
    have hk : p.2.dirName = p.1 := hinv p hp
    have hlook : mapLookup (applyWrites (writeSeq roots) []) p.1 = some p.2 :=
      mapLookup_of_mem _ p hnd hp
    have hor := mapLookup_applyWrites (writeSeq roots) [] p.1
    rw [hlook] at hor
    have hnone : mapLookup [] p.1 = none := rfl
    rw [hnone, Option.or_none] at hor
    unfold specLastRecord
    rw [← hps, hk, ← hor, hps]
  have h4 : (allSkills le roots).Pairwise (fun a b => le a.dirName b.dirName = true) := by
    unfold allSkills
    rw [hcm]
    exact sorted_insertionSort _ (fun (a b : Skill) => htot a.dirName b.dirName)
      (fun (a b c : Skill) => htr a.dirName b.dirName c.dirName) _
  exact ⟨h1, h2, (listAll_iff _ _).mpr h3, h4⟩

/-- Witness for C6: the sample configuration (two roots, a colliding
`zed` directory) with the lexicographic comparator, whose totality and
transitivity discharge the hypotheses. -/
theorem report_rows_unique_lastwins_sorted_witness :
    ((allSkills strLe sampleRoots).map (fun s => s.dirName)).Nodup ∧
    List.Perm ((allSkills strLe sampleRoots).map (fun s => s.dirName)) (uniqueNames sampleRoots) ∧
    ListAll (fun s => specLastRecord sampleRoots s.dirName = some s) (allSkills strLe sampleRoots) ∧
    (allSkills strLe sampleRoots).Pairwise (fun a b => strLe a.dirName b.dirName = true) :=
  report_rows_unique_lastwins_sorted strLe sampleRoots strLe_total strLe_trans

/-! ### Independence of the report rows from the declared name -/

/-- The directory name is the first component of the row view. -/
theorem dirName_of_rowView (s t : Skill) (h : rowView s = rowView t) :
    s.dirName = t.dirName :=
  congrArg (fun x => x.1) h

/-- Attaching the same source label preserves row-view equality. -/
theorem rowView_withSource (lbl : List Char) (s t : Skill) (h : rowView s = rowView t) :
    rowView (withSource lbl s) = rowView (withSource lbl t) := by
  have h1 : s.dirName = t.dirName := congrArg (fun x => x.1) h
  have h2 : s.description = t.description := congrArg (fun x => x.2.1) h
  have h4 : s.meta = t.meta := congrArg (fun x => x.2.2.2) h
  unfold rowView withSource
  rw [h1, h2, h4]

/-- Mapping the same source label over row-view-equal lists preserves
the relation. -/
theorem map_withSource_rowView (lbl : List Char) :
    ∀ l1 l2 : List Skill, List.Forall₂ (fun s t => rowView s = rowView t) l1 l2 →
      List.Forall₂ (fun s t => rowView s = rowView t)
        (l1.map (withSource lbl)) (l2.map (withSource lbl)) := by
  intro l1 l2 h
  induction h with
  | nil => exact List.Forall₂.nil
  | cons hst h2 ih =>
    rw [List.map_cons, List.map_cons]
    exact List.Forall₂.cons (rowView_withSource lbl _ _ hst) ih

/-- For similar directory entries, record construction produces either
nothing on both sides or records with equal row views. -/
theorem skillOfSubdir_simRV (e1 e2 : SubDir) (h : SubSim e1 e2) :
    (skillOfSubdir e1 = none ∧ skillOfSubdir e2 = none) ∨
      (∃ s t, skillOfSubdir e1 = some s ∧ skillOfSubdir e2 = some t ∧ rowView s = rowView t) := by
  obtain ⟨hname, hdir, hskill, hfm⟩ := h
  unfold skillOfSubdir
  by_cases hq : (e1.isDir && e1.hasSkill) = true
  · rw [if_pos hq, if_pos (by rw [← hdir, ← hskill]; exact hq)]
    right
    refine ⟨_, _, rfl, rfl, ?_⟩
    have hdesc := hfm (String.toList "description") (by decide)
    have hmeta := hfm (String.toList "metadata") (by decide)
    have hmeta2 := hfm (String.toList "_meta") (by decide)
    have hmetaOf : metaOf (parseFrontmatter e1.content) = metaOf (parseFrontmatter e2.content) := by
      unfold metaOf metaUnderscore
      rw [hmeta, hmeta2]
    unfold rowView
    simp only [Prod.mk.injEq]
    exact ⟨hname, by rw [hdesc], trivial, by rw [hmetaOf]⟩
  · rw [if_neg hq, if_neg (by rw [← hdir, ← hskill]; exact hq)]
    exact Or.inl ⟨rfl, rfl⟩

/-- Similar subdirectory lists produce row-view-equal record lists. -/
theorem filterMap_rowView (l1 l2 : List SubDir) (h : List.Forall₂ SubSim l1 l2) :
    List.Forall₂ (fun s t => rowView s = rowView t)
      (l1.filterMap skillOfSubdir) (l2.filterMap skillOfSubdir) := by
  induction h with
  | nil => exact List.Forall₂.nil
  | cons hst hrest ih =>
    rw [List.filterMap_cons, List.filterMap_cons]
    rcases skillOfSubdir_simRV _ _ hst with ⟨h1, h2⟩ | ⟨s, t, h1, h2, hrv⟩
    · rw [h1, h2]; exact ih
    · rw [h1, h2]; exact List.Forall₂.cons hrv ih

/-- Similar root lists produce row-view-equal write sequences. -/
theorem writeSeq_rowView : ∀ R1 R2 : List Root, List.Forall₂ RootSim R1 R2 →
    List.Forall₂ (fun s t => rowView s = rowView t) (writeSeq R1) (writeSeq R2) := by
  intro R1 R2 h
  induction h with
  | nil => exact List.Forall₂.nil
  | @cons r1 r2 t1 t2 hr hrest ih =>
    obtain ⟨hp, hl, hsubs⟩ := hr
    have hskills : List.Forall₂ (fun s t => rowView s = rowView t)
        (getSkillsFromDir r1) (getSkillsFromDir r2) := by
      unfold getSkillsFromDir
      by_cases hpres : r1.present = true
      · rw [if_pos hpres, if_pos (by rw [← hp]; exact hpres)]
        exact filterMap_rowView _ _ hsubs
      · rw [if_neg hpres, if_neg (fun hc => hpres (by rw [hp]; exact hc))]
        exact List.Forall₂.nil
    have hmap : List.Forall₂ (fun s t => rowView s = rowView t)
        ((getSkillsFromDir r1).map (withSource r1.label))
        ((getSkillsFromDir r2).map (withSource r2.label)) := by
      rw [hl]
      exact map_withSource_rowView r2.label _ _ hskills
    exact List.rel_append hmap ih

/-- A pair of writes with equal keys and row views preserves the map
congruence. -/
theorem setEntry_congrRV :
    ∀ m1 m2 : List (List Char × Skill),
      List.Forall₂ (fun p q => p.1 = q.1 ∧ rowView p.2 = rowView q.2) m1 m2 →
      ∀ (k : List Char) (v1 v2 : Skill), rowView v1 = rowView v2 →
        List.Forall₂ (fun p q => p.1 = q.1 ∧ rowView p.2 = rowView q.2)
          (setEntry m1 k v1) (setEntry m2 k v2) := by
  intro m1 m2 h
  induction h with
  | nil =>
    intro k v1 v2 hv
    exact List.Forall₂.cons ⟨rfl, hv⟩ List.Forall₂.nil
  | @cons p q t1 t2 hpq hrest ih =>
    intro k v1 v2 hv
    by_cases hk : p.1 = k
    · rw [setEntry_cons_pos p t1 k v1 hk, setEntry_cons_pos q t2 k v2 (by rw [← hpq.1]; exact hk)]
      exact List.Forall₂.cons ⟨rfl, hv⟩ hrest
    · rw [setEntry_cons_neg p t1 k v1 hk,
        setEntry_cons_neg q t2 k v2 (fun hc => hk (by rw [hpq.1]; exact hc))]
      exact List.Forall₂.cons hpq (ih k v1 v2 hv)

/-- Row-view-equal write sequences lead congruent maps to congruent
maps. -/
theorem applyWrites_congrRV :
    ∀ ws1 ws2 : List Skill, List.Forall₂ (fun s t => rowView s = rowView t) ws1 ws2 →
      ∀ m1 m2 : List (List Char × Skill),
        List.Forall₂ (fun p q => p.1 = q.1 ∧ rowView p.2 = rowView q.2) m1 m2 →
        List.Forall₂ (fun p q => p.1 = q.1 ∧ rowView p.2 = rowView q.2)
          (applyWrites ws1 m1) (applyWrites ws2 m2) := by
  intro ws1 ws2 h
  induction h with
  | nil => intro m1 m2 hm; exact hm
  | @cons s t t1 t2 hst hrest ih =>
    intro m1 m2 hm
    have hstep1 : applyWrites (s :: t1) m1 = applyWrites t1 (setEntry m1 s.dirName s) := rfl
    have hstep2 : applyWrites (t :: t2) m2 = applyWrites t2 (setEntry m2 t.dirName t) := rfl
    rw [hstep1, hstep2, show t.dirName = s.dirName from (dirName_of_rowView s t hst).symm]
    exact ih _ _ (setEntry_congrRV m1 m2 hm s.dirName s t hst)

/-- Congruent maps have row-view-equal value lists. -/
theorem values_rowView :
    ∀ m1 m2 : List (List Char × Skill),
      List.Forall₂ (fun p q => p.1 = q.1 ∧ rowView p.2 = rowView q.2) m1 m2 →
      (m1.map (fun p => p.2)).map rowView = (m2.map (fun p => p.2)).map rowView := by
  intro m1 m2 h
  induction h with
  | nil => rfl
  | cons hpq hrest ih =>
    simp only [List.map_cons]
    rw [hpq.2, ih]

/-- Claim C8: two runs over descriptor sets that differ at most in
declared `name` fields produce report rows with identical row views —
same grouping keys, same sort order, same displayed identity — so
renaming a descriptor does not change which report row it occupies. -/
theorem report_rows_ignore_declared_name (le : List Char → List Char → Bool)
    (R1 R2 : List Root) (h : List.Forall₂ RootSim R1 R2) :
    (allSkills le R1).map rowView = (allSkills le R2).map rowView := by
  unfold allSkills
  rw [collectMap_eq_applyWrites, collectMap_eq_applyWrites]
  have hmap := applyWrites_congrRV _ _ (writeSeq_rowView R1 R2 h) [] [] List.Forall₂.nil
  have hvals := values_rowView _ _ hmap
  rw [map_insertionSort rowView (fun a b => le a.dirName b.dirName)
      (fun x y => le x.1 y.1) (fun _ _ => rfl),
    map_insertionSort rowView (fun a b => le a.dirName b.dirName)
      (fun x y => le x.1 y.1) (fun _ _ => rfl),
    hvals]

/-- Witness for C8: the sample descriptor pair differing only in the
declared name value. -/
theorem report_rows_ignore_declared_name_witness :
    List.Forall₂ RootSim sampleRootsA sampleRootsB ∧
      (allSkills strLe sampleRootsA).map rowView = (allSkills strLe sampleRootsB).map rowView := by
  have h1 : parseFrontmatter (String.toList "---\nname: one\n---") =
      [(String.toList "name", String.toList "one")] := by decide
  have h2 : parseFrontmatter (String.toList "---\nname: two\n---") =
      [(String.toList "name", String.toList "two")] := by decide
  have hsim : List.Forall₂ RootSim sampleRootsA sampleRootsB := by
    unfold sampleRootsA sampleRootsB
    refine List.Forall₂.cons ⟨rfl, rfl, List.Forall₂.cons ⟨rfl, rfl, rfl, ?_⟩ List.Forall₂.nil⟩
      List.Forall₂.nil
    intro k hk
    show fmLookup (parseFrontmatter (String.toList "---\nname: one\n---")) k =
      fmLookup (parseFrontmatter (String.toList "---\nname: two\n---")) k
    have hlit : String.toList "name" = ['n', 'a', 'm', 'e'] := rfl
    have hb : ((['n', 'a', 'm', 'e'] : List Char) == k) = false := by
      rw [beq_eq_false_iff_ne]
      intro hc
      exact hk (by rw [hlit]; exact hc.symm)
    rw [h1, h2]
    unfold fmLookup
    simp [List.find?, hb]
  exact ⟨hsim, report_rows_ignore_declared_name strLe _ _ hsim⟩

end SkillAudit
